import Mathlib

/-!
Verification of the Quirk-URL column compiler slice of this repository.

The pure parsing helpers (`expand_unicode_fractions`, `parse_formula`,
`_parse_complex` from `cirq/contrib/quirk/quirk_gate_reg_utils.py`) are
embedded directly.  Strings are modelled as `List Char` (the code points of
a Python `str`); Python's `str.replace` is embedded for the one- and
two-character patterns actually used by the source.  The external sympy
expression evaluator is kept abstract: it enters as a function parameter
together with the data the source inspects on its result (the set of free
symbols, the real value of a constant expression).

The cell/column compiler itself (`url_to_circuit.py` and the
`cells/*.py` modules) is not part of the provided sources - only its test
suite and its registration table are - so those parts are modelled from the
specification, as marked on each such definition.
-/

namespace QuirkSpec

/-- Python `str.replace` for a single-character pattern `k`: every
occurrence of `k` is replaced by `v`. -/
def replace1 (k : Char) (v : List Char) : List Char → List Char
  | [] => []
  | c :: rest => if c = k then v ++ replace1 k v rest else c :: replace1 k v rest

/-- Python `str.replace` for a two-character pattern `k1 k2`: leftmost,
non-overlapping occurrences are replaced by `v`. -/
def replace2 (k1 k2 : Char) (v : List Char) : List Char → List Char
  | [] => []
  | [c] => [c]
  | c1 :: c2 :: rest =>
    if c1 = k1 ∧ c2 = k2 then v ++ replace2 k1 k2 v rest
    else c1 :: replace2 k1 k2 v (c2 :: rest)

/-- Whether `pat` occurs as a contiguous substring of the character list. -/
def containsSub (pat : List Char) : List Char → Bool
  | [] => pat.isEmpty
  | c :: rest => pat.isPrefixOf (c :: rest) || containsSub pat rest

/-- Whether the string `pat` occurs as a contiguous substring of `s`. -/
def containsSubstr (s pat : String) : Bool :=
  containsSub pat.data s.data

/-- The `UNICODE_FRACTIONS` table of `quirk_gate_reg_utils.py`: each vulgar
fraction glyph mapped to the characters of its parenthesized fraction text. -/
def UNICODE_FRACTIONS : List (Char × List Char) :=
  [ ('½', "(1/2)".data),
    ('¼', "(1/4)".data),
    ('¾', "(3/4)".data),
    ('⅓', "(1/3)".data),
    ('⅔', "(2/3)".data),
    ('⅕', "(1/5)".data),
    ('⅖', "(2/5)".data),
    ('⅗', "(3/5)".data),
    ('⅘', "(4/5)".data),
    ('⅙', "(1/6)".data),
    ('⅚', "(5/6)".data),
    ('⅐', "(1/7)".data),
    ('⅛', "(1/8)".data),
    ('⅜', "(3/8)".data),
    ('⅝', "(5/8)".data),
    ('⅞', "(7/8)".data),
    ('⅑', "(1/9)".data),
    ('⅒', "(1/10)".data) ]

/-- The replacement text used for the compound glyph sequence `√k`:
the Python source builds it as the format string `(sqrt{v})`. -/
def sqrtWrap (v : List Char) : List Char :=
  "(sqrt".data ++ v ++ ")".data

/-- One iteration of the loop body of `expand_unicode_fractions`:
`text.replace('√'+k, '(sqrt'+v+')').replace(k, v)`. -/
def expandStep (t : List Char) (p : Char × List Char) : List Char :=
  replace1 p.1 p.2 (replace2 '√' p.1 (sqrtWrap p.2) t)

/-- `expand_unicode_fractions` of `quirk_gate_reg_utils.py` on the
character-list representation: for each table entry, first replace the
compound `√`-glyph sequence, then the bare glyph. -/
def expandList (s : List Char) : List Char :=
  UNICODE_FRACTIONS.foldl expandStep s

/-- `expand_unicode_fractions` of `quirk_gate_reg_utils.py`. -/
def expand_unicode_fractions (text : String) : String :=
  ⟨expandList text.data⟩

/-- A single key's one-pass scan: replaces `√k` by `sv` and bare `k` by `v`
in one left-to-right traversal.  Used to relate the two sequential
`str.replace` calls of one loop iteration to a single scan. -/
def scan1 (k : Char) (v sv : List Char) : List Char → List Char
  | [] => []
  | [c] => if c = k then v else [c]
  | c1 :: c2 :: rest =>
    if c1 = '√' ∧ c2 = k then sv ++ scan1 k v sv rest
    else if c1 = k then v ++ scan1 k v sv (c2 :: rest)
    else c1 :: scan1 k v sv (c2 :: rest)

/-- The specification-side expansion: a single left-to-right scan over the
input replacing every compound occurrence `√g` of a recognized vulgar
fraction glyph `g` by `(sqrt(<fraction>))` and every bare occurrence of `g`
by its parenthesized fraction text, the compound form taking precedence. -/
def scanTab (tab : List (Char × List Char)) : List Char → List Char
  | [] => []
  | [c] =>
    match List.lookup c tab with
    | some w => w
    | none => [c]
  | c1 :: c2 :: rest =>
    if c1 = '√' then
      match List.lookup c2 tab with
      | some w => sqrtWrap w ++ scanTab tab rest
      | none => '√' :: scanTab tab (c2 :: rest)
    else
      match List.lookup c1 tab with
      | some w => w ++ scanTab tab (c2 :: rest)
      | none => c1 :: scanTab tab (c2 :: rest)

/-- Specification-side reading of `expand_unicode_fractions` as a single
scan with the full fraction table. -/
def specVulgarExpansion (text : String) : String :=
  ⟨scanTab UNICODE_FRACTIONS text.data⟩

example : expand_unicode_fractions "√½" = "(sqrt(1/2))" := by decide
example : expand_unicode_fractions "x^½" = "x^(1/2)" := by decide
example : specVulgarExpansion "√½+⅓" = "(sqrt(1/2))+(1/3)" := by decide

/-! Equation lemmas for the scanners, and the correspondence between the
fold of sequential replacements and the single specification scan. -/

theorem replace1_cons (k : Char) (v : List Char) (c : Char) (t : List Char) :
    replace1 k v (c :: t) =
      if c = k then v ++ replace1 k v t else c :: replace1 k v t := rfl

theorem replace1_append_not_mem (k : Char) (v : List Char) {a : List Char}
    (b : List Char) (h : k ∉ a) :
    replace1 k v (a ++ b) = a ++ replace1 k v b := by
  induction a with
  | nil => rfl
  | cons c t ih =>
    have hck : ¬ c = k := fun hc => h (hc ▸ List.mem_cons_self c t)
    simp only [List.cons_append, replace1_cons, if_neg hck]
    rw [ih (fun hm => h (List.mem_cons_of_mem c hm))]

theorem scan1_singleton (k : Char) (v sv : List Char) (c : Char) :
    scan1 k v sv [c] = if c = k then v else [c] := rfl

theorem scan1_cons_ne_sqrt (k : Char) (v sv : List Char) {c : Char}
    (t : List Char) (hc : c ≠ '√') :
    scan1 k v sv (c :: t) =
      if c = k then v ++ scan1 k v sv t else c :: scan1 k v sv t := by
  cases t with
  | nil => rw [scan1_singleton]; split <;> simp [scan1]
  | cons c2 r =>
    have : ¬ (c = '√' ∧ c2 = k) := fun hq => hc hq.1
    simp only [scan1, if_neg this]

theorem scan1_sqrt_hit (k : Char) (v sv : List Char) (rest : List Char) :
    scan1 k v sv ('√' :: k :: rest) = sv ++ scan1 k v sv rest := by
  simp [scan1]

theorem scan1_sqrt_miss (k : Char) (v sv : List Char) {c : Char}
    (rest : List Char) (hk : k ≠ '√') (hc : c ≠ k) :
    scan1 k v sv ('√' :: c :: rest) = '√' :: scan1 k v sv (c :: rest) := by
  show (if '√' = '√' ∧ c = k then sv ++ scan1 k v sv rest
      else if '√' = k then v ++ scan1 k v sv (c :: rest)
      else '√' :: scan1 k v sv (c :: rest)) = '√' :: scan1 k v sv (c :: rest)
  rw [if_neg (fun hq => hc hq.2), if_neg (Ne.symm hk)]

theorem scan1_append_inert (k : Char) (v sv : List Char) {a : List Char}
    (b : List Char) (h : ∀ c ∈ a, c ≠ k ∧ c ≠ '√') :
    scan1 k v sv (a ++ b) = a ++ scan1 k v sv b := by
  induction a with
  | nil => rfl
  | cons c t ih =>
    have hc := h c (List.mem_cons_self c t)
    rw [List.cons_append, scan1_cons_ne_sqrt k v sv _ hc.2, if_neg hc.1,
      ih (fun x hx => h x (List.mem_cons_of_mem c hx))]
    rfl

theorem scan1_inert (k : Char) (v sv : List Char) {a : List Char}
    (h : ∀ c ∈ a, c ≠ k ∧ c ≠ '√') :
    scan1 k v sv a = a := by
  have := scan1_append_inert k v sv [] h
  simpa [scan1] using this

/-- The two sequential `str.replace` calls of one loop iteration of
`expand_unicode_fractions` equal the single one-pass scan `scan1`. -/
theorem replace_pair_eq_scan1 (k : Char) (v sv : List Char)
    (hk : k ≠ '√') (hks : k ∉ sv) :
    ∀ s, replace1 k v (replace2 '√' k sv s) = scan1 k v sv s := by
  have main : ∀ n, ∀ s : List Char, s.length ≤ n →
      replace1 k v (replace2 '√' k sv s) = scan1 k v sv s := by
    intro n
    induction n with
    | zero =>
      intro s hs
      have : s = [] := List.length_eq_zero.mp (Nat.le_zero.mp hs)
      subst this; rfl
    | succ n ih =>
      intro s hs
      rcases s with _ | ⟨c1, _ | ⟨c2, rest⟩⟩
      · rfl
      · simp only [replace2, replace1_cons, scan1_singleton, replace1]
        split <;> simp
      · have hlen2 : (c2 :: rest).length ≤ n := by
          simp only [List.length_cons] at hs ⊢; omega
        have hlen1 : rest.length ≤ n := by
          simp only [List.length_cons] at hs; omega
        by_cases h12 : c1 = '√' ∧ c2 = k
        · obtain ⟨h1, h2⟩ := h12
          subst h1
          have hr2 : replace2 '√' k sv ('√' :: c2 :: rest) =
              sv ++ replace2 '√' k sv rest := by
            simp [replace2, h2]
          rw [hr2, replace1_append_not_mem k v _ hks, ih rest hlen1, h2,
            scan1_sqrt_hit]
        · simp only [replace2, if_neg h12, replace1_cons]
          by_cases hck : c1 = k
          · rw [if_pos hck, ih _ hlen2, hck,
              scan1_cons_ne_sqrt k v sv _ hk, if_pos rfl]
          · rw [if_neg hck, ih _ hlen2]
            by_cases hcs : c1 = '√'
            · subst hcs
              have hc2 : c2 ≠ k := fun hq => h12 ⟨rfl, hq⟩
              rw [scan1_sqrt_miss k v sv _ hk hc2]
            · rw [scan1_cons_ne_sqrt k v sv _ hcs, if_neg hck]
  exact fun s => main s.length s le_rfl

theorem lookup_none_of_not_mem {a : Char} {l : List (Char × List Char)}
    (h : a ∉ l.map Prod.fst) : List.lookup a l = none := by
  induction l with
  | nil => rfl
  | cons p t ih =>
    have hne : ¬ a = p.1 := by
      intro hq; exact h (by simp [hq])
    have : (a == p.1) = false := beq_false_of_ne hne
    simp only [List.lookup, this]
    exact ih (fun hm => h (by simp at hm ⊢; exact Or.inr hm))

theorem lookup_some_mem {a : Char} {w : List Char} {l : List (Char × List Char)}
    (h : List.lookup a l = some w) : (a, w) ∈ l := by
  induction l with
  | nil => simp [List.lookup] at h
  | cons p t ih =>
    rcases p with ⟨p1, p2⟩
    by_cases hq : a = p1
    · subst hq
      simp only [List.lookup, beq_self_eq_true, Option.some.injEq] at h
      simp [h]
    · have hb : (a == p1) = false := beq_false_of_ne hq
      simp only [List.lookup, hb] at h
      exact List.mem_cons_of_mem _ (ih h)

theorem lookup_append_some {a : Char} {w : List Char}
    {l1 : List (Char × List Char)} (l2 : List (Char × List Char))
    (h : List.lookup a l1 = some w) :
    List.lookup a (l1 ++ l2) = some w := by
  induction l1 with
  | nil => simp [List.lookup] at h
  | cons p t ih =>
    rcases hq : (a == p.1) with _ | _ <;>
      simp only [List.lookup, hq] at h ⊢ <;> simp_all [List.lookup, hq]

theorem lookup_append_none {a : Char}
    {l1 : List (Char × List Char)} (l2 : List (Char × List Char))
    (h : List.lookup a l1 = none) :
    List.lookup a (l1 ++ l2) = List.lookup a l2 := by
  induction l1 with
  | nil => rfl
  | cons p t ih =>
    rcases hq : (a == p.1) with _ | _ <;>
      simp only [List.lookup, hq] at h ⊢ <;> simp_all [List.lookup, hq]

theorem scanTab_singleton_some {tab : List (Char × List Char)} {c : Char}
    {w : List Char} (h : List.lookup c tab = some w) :
    scanTab tab [c] = w := by
  simp [scanTab, h]

theorem scanTab_singleton_none {tab : List (Char × List Char)} {c : Char}
    (h : List.lookup c tab = none) :
    scanTab tab [c] = [c] := by
  simp [scanTab, h]

theorem scanTab_sqrt_some {tab : List (Char × List Char)} {c2 : Char}
    {w : List Char} (rest : List Char) (h : List.lookup c2 tab = some w) :
    scanTab tab ('√' :: c2 :: rest) = sqrtWrap w ++ scanTab tab rest := by
  simp [scanTab, h]

theorem scanTab_sqrt_none {tab : List (Char × List Char)} {c2 : Char}
    (rest : List Char) (h : List.lookup c2 tab = none) :
    scanTab tab ('√' :: c2 :: rest) = '√' :: scanTab tab (c2 :: rest) := by
  simp [scanTab, h]

theorem scanTab_cons_some {tab : List (Char × List Char)} {c : Char}
    {w : List Char} (t : List Char) (hc : c ≠ '√')
    (h : List.lookup c tab = some w) :
    scanTab tab (c :: t) = w ++ scanTab tab t := by
  cases t <;> simp [scanTab, h, hc]

theorem scanTab_cons_none {tab : List (Char × List Char)} {c : Char}
    (t : List Char) (hc : c ≠ '√') (h : List.lookup c tab = none) :
    scanTab tab (c :: t) = c :: scanTab tab t := by
  cases t <;> simp [scanTab, h, hc]

theorem mem_sqrtWrap_of_mem {c : Char} {w : List Char} (h : c ∈ w) :
    c ∈ sqrtWrap w := by
  simp [sqrtWrap, List.mem_append]
  tauto

/-- The output of `scanTab` on a list whose head differs from `k` never
starts with `k` (given that `k` is neither a key, the radical sign, nor an
opening parenthesis, and table values avoid `k`). -/
theorem scanTab_head_ne {tab : List (Char × List Char)} {k : Char}
    (hk : k ≠ '√') (hkpar : k ≠ '(')
    (hstab : List.lookup '√' tab = none)
    (hvals : ∀ p ∈ tab, ∀ c ∈ sqrtWrap p.2, c ≠ k ∧ c ≠ '√')
    (hvalne : ∀ p ∈ tab, p.2 ≠ [])
    {c : Char} (t : List Char) (hc : c ≠ k) :
    ∀ x, (scanTab tab (c :: t)).head? = some x → x ≠ k := by
  intro x hx
  by_cases hcs : c = '√'
  · subst hcs
    cases t with
    | nil =>
      rw [scanTab_singleton_none hstab] at hx
      simp at hx
      exact hx ▸ (Ne.symm hk)
    | cons c2 r =>
      cases hl : List.lookup c2 tab with
      | some w =>
        rw [scanTab_sqrt_some r hl] at hx
        simp [sqrtWrap] at hx
        subst hx
        exact Ne.symm hkpar
      | none =>
        rw [scanTab_sqrt_none r hl] at hx
        simp at hx
        exact hx ▸ (Ne.symm hk)
  · cases hl : List.lookup c tab with
    | some w =>
      rw [scanTab_cons_some t hcs hl] at hx
      have hmem : (c, w) ∈ tab := lookup_some_mem hl
      have hwne : w ≠ [] := hvalne _ hmem
      cases w with
      | nil => exact absurd rfl hwne
      | cons w0 ws =>
        simp at hx
        have : w0 ∈ w0 :: ws := List.mem_cons_self _ _
        exact hx ▸ (hvals _ hmem w0 (mem_sqrtWrap_of_mem this)).1
    | none =>
      rw [scanTab_cons_none t hcs hl] at hx
      simp at hx
      exact hx ▸ hc

theorem scan1_sqrt_cons {k : Char} (v sv : List Char) {X : List Char}
    (hk : k ≠ '√') (hhead : ∀ x, X.head? = some x → x ≠ k) :
    scan1 k v sv ('√' :: X) = '√' :: scan1 k v sv X := by
  cases X with
  | nil => rw [scan1_singleton, if_neg (Ne.symm hk)]; rfl
  | cons x X2 => exact scan1_sqrt_miss k v sv X2 hk (hhead x rfl)

/-- Extending the table by one fresh key on the right equals running the
one-key scan `scan1` after the scan with the smaller table. -/
theorem scan1_scanTab_extend {tab : List (Char × List Char)} {k : Char}
    {v : List Char}
    (hk : k ≠ '√') (hkpar : k ≠ '(')
    (hktab : List.lookup k tab = none)
    (hstab : List.lookup '√' tab = none)
    (hvals : ∀ p ∈ tab, ∀ c ∈ sqrtWrap p.2, c ≠ k ∧ c ≠ '√')
    (hvalne : ∀ p ∈ tab, p.2 ≠ []) :
    ∀ s, scan1 k v (sqrtWrap v) (scanTab tab s) =
      scanTab (tab ++ [(k, v)]) s := by
  have hlk2 : List.lookup k (tab ++ [(k, v)]) = some v := by
    rw [lookup_append_none _ hktab]
    simp [List.lookup]
  have hstab2 : List.lookup '√' (tab ++ [(k, v)]) = none := by
    rw [lookup_append_none _ hstab]
    simp [List.lookup, beq_false_of_ne (Ne.symm hk)]
  have hnone2 : ∀ {c : Char}, c ≠ k → List.lookup c tab = none →
      List.lookup c (tab ++ [(k, v)]) = none := by
    intro c hc hno
    rw [lookup_append_none _ hno]
    simp [List.lookup, beq_false_of_ne hc]
  have hclean : ∀ {c : Char} {w : List Char}, List.lookup c tab = some w →
      ∀ x ∈ w, x ≠ k ∧ x ≠ '√' := by
    intro c w hl x hx
    exact hvals _ (lookup_some_mem hl) x (mem_sqrtWrap_of_mem hx)
  have hcleanWrap : ∀ {c : Char} {w : List Char}, List.lookup c tab = some w →
      ∀ x ∈ sqrtWrap w, x ≠ k ∧ x ≠ '√' := by
    intro c w hl x hx
    exact hvals _ (lookup_some_mem hl) x hx
  have main : ∀ n, ∀ s : List Char, s.length ≤ n →
      scan1 k v (sqrtWrap v) (scanTab tab s) = scanTab (tab ++ [(k, v)]) s := by
    intro n
    induction n with
    | zero =>
      intro s hs
      have : s = [] := List.length_eq_zero.mp (Nat.le_zero.mp hs)
      subst this; rfl
    | succ n ih =>
      intro s hs
      rcases s with _ | ⟨c1, _ | ⟨c2, rest⟩⟩
      · rfl
      · by_cases h1s : c1 = '√'
        · subst h1s
          rw [scanTab_singleton_none hstab, scanTab_singleton_none hstab2,
            scan1_singleton, if_neg (Ne.symm hk)]
        · cases hl : List.lookup c1 tab with
          | some w =>
            rw [scanTab_singleton_some hl,
              scanTab_singleton_some (lookup_append_some _ hl),
              scan1_inert k v (sqrtWrap v) (hclean hl)]
          | none =>
            by_cases hck : c1 = k
            · rw [scanTab_singleton_none hl, scan1_singleton, if_pos hck, hck,
                scanTab_singleton_some hlk2]
            · rw [scanTab_singleton_none hl, scan1_singleton, if_neg hck,
                scanTab_singleton_none (hnone2 hck hl)]
      · have hlen2 : (c2 :: rest).length ≤ n := by
          simp only [List.length_cons] at hs ⊢; omega
        have hlen1 : rest.length ≤ n := by
          simp only [List.length_cons] at hs; omega
        by_cases h1s : c1 = '√'
        · subst h1s
          cases hl : List.lookup c2 tab with
          | some w =>
            rw [scanTab_sqrt_some rest hl,
              scan1_append_inert k v (sqrtWrap v) _ (hcleanWrap hl),
              ih rest hlen1,
              scanTab_sqrt_some rest (lookup_append_some _ hl)]
          | none =>
            by_cases hc2k : c2 = k
            · have hc2ne : c2 ≠ '√' := by rw [hc2k]; exact hk
              rw [scanTab_sqrt_none rest hl, scanTab_cons_none rest hc2ne hl,
                hc2k, scan1_sqrt_hit, ih rest hlen1,
                scanTab_sqrt_some rest hlk2]
            · have hhead := scanTab_head_ne hk hkpar hstab hvals hvalne
                rest hc2k
              rw [scanTab_sqrt_none rest hl,
                scan1_sqrt_cons v (sqrtWrap v) hk hhead,
                ih _ hlen2,
                scanTab_sqrt_none rest (hnone2 hc2k hl)]
        · cases hl : List.lookup c1 tab with
          | some w =>
            rw [scanTab_cons_some _ h1s hl,
              scan1_append_inert k v (sqrtWrap v) _ (hclean hl),
              ih _ hlen2,
              scanTab_cons_some _ h1s (lookup_append_some _ hl)]
          | none =>
            by_cases hck : c1 = k
            · rw [scanTab_cons_none _ h1s hl, hck,
                scan1_cons_ne_sqrt k v (sqrtWrap v) _ hk, if_pos rfl,
                ih _ hlen2, scanTab_cons_some _ hk hlk2]
            · rw [scanTab_cons_none _ h1s hl,
                scan1_cons_ne_sqrt k v (sqrtWrap v) _ h1s, if_neg hck,
                ih _ hlen2, scanTab_cons_none _ h1s (hnone2 hck hl)]
  exact fun s => main s.length s le_rfl

theorem scanTab_nil_table : ∀ s : List Char, scanTab [] s = s := by
  have hemp : ∀ c : Char, List.lookup c ([] : List (Char × List Char)) = none :=
    fun _ => rfl
  have main : ∀ n, ∀ s : List Char, s.length ≤ n → scanTab [] s = s := by
    intro n
    induction n with
    | zero =>
      intro s hs
      have : s = [] := List.length_eq_zero.mp (Nat.le_zero.mp hs)
      subst this; rfl
    | succ n ih =>
      intro s hs
      rcases s with _ | ⟨c1, _ | ⟨c2, rest⟩⟩
      · rfl
      · exact scanTab_singleton_none (hemp _)
      · have hlen2 : (c2 :: rest).length ≤ n := by
          simp only [List.length_cons] at hs ⊢; omega
        by_cases h1s : c1 = '√'
        · subst h1s
          rw [scanTab_sqrt_none rest (hemp _), ih _ hlen2]
        · rw [scanTab_cons_none _ h1s (hemp _), ih _ hlen2]
  exact fun s => main s.length s le_rfl

/-- The key characters of a fraction table. -/
def keysOf (tab : List (Char × List Char)) : List Char :=
  tab.map Prod.fst

/-- Side conditions on a fraction table under which the sequential-replace
implementation agrees with the one-pass scan: keys are distinct, neither
the radical sign nor an opening parenthesis is a key, values are nonempty,
and no replacement text contains a key or the radical sign. -/
def tableCond (tab : List (Char × List Char)) : Prop :=
  (keysOf tab).Nodup ∧ '√' ∉ keysOf tab ∧ '(' ∉ keysOf tab ∧
  (∀ p ∈ tab, p.2 ≠ []) ∧
  (∀ p ∈ tab, ∀ c ∈ sqrtWrap p.2, c ∉ keysOf tab ∧ c ≠ '√')

theorem foldl_expandStep_eq_scanTab {full : List (Char × List Char)}
    (H : tableCond full) :
    ∀ todo done, done ++ todo = full → ∀ s : List Char,
      List.foldl expandStep (scanTab done s) todo = scanTab (done ++ todo) s := by
  intro todo
  induction todo with
  | nil =>
    intro done hsplit s
    simp
  | cons p todo2 ih =>
    intro done hsplit s
    rcases p with ⟨k, v⟩
    have hkfull : k ∈ keysOf full := by
      rw [← hsplit]; simp [keysOf]
    have hmemfull : (k, v) ∈ full := by
      rw [← hsplit]; simp
    obtain ⟨hnd, hsq, hpar, hne, hcl⟩ := H
    have hk : k ≠ '√' := fun hq => hsq (hq ▸ hkfull)
    have hkpar : k ≠ '(' := fun hq => hpar (hq ▸ hkfull)
    have hsubdone : ∀ x, x ∈ keysOf done → x ∈ keysOf full := by
      intro x hx
      rw [← hsplit]
      simp only [keysOf, List.map_append, List.mem_append]
      exact Or.inl hx
    have hknotdone : k ∉ keysOf done := by
      intro hmem
      rw [← hsplit] at hnd
      have heq : keysOf (done ++ (k, v) :: todo2) =
          keysOf done ++ k :: keysOf todo2 := by
        simp [keysOf]
      rw [heq] at hnd
      exact (List.nodup_append.mp hnd).2.2 hmem (List.mem_cons_self _ _)
    have hktab : List.lookup k done = none :=
      lookup_none_of_not_mem hknotdone
    have hstab : List.lookup '√' done = none :=
      lookup_none_of_not_mem (fun hm => hsq (hsubdone _ hm))
    have hdonemem : ∀ q ∈ done, q ∈ full := by
      intro q hq
      rw [← hsplit]
      exact List.mem_append_left _ hq
    have hvals : ∀ q ∈ done, ∀ c ∈ sqrtWrap q.2, c ≠ k ∧ c ≠ '√' := by
      intro q hq c hc
      have h2 := hcl q (hdonemem q hq) c hc
      exact ⟨fun hx => h2.1 (hx ▸ hkfull), h2.2⟩
    have hvalne : ∀ q ∈ done, q.2 ≠ [] := fun q hq => hne q (hdonemem q hq)
    have hknotsv : k ∉ sqrtWrap v := by
      intro hm
      exact (hcl (k, v) hmemfull k hm).1 hkfull
    have hstep : expandStep (scanTab done s) (k, v) =
        scanTab (done ++ [(k, v)]) s := by
      show replace1 k v (replace2 '√' k (sqrtWrap v) (scanTab done s)) = _
      rw [replace_pair_eq_scan1 k v (sqrtWrap v) hk hknotsv,
        scan1_scanTab_extend hk hkpar hktab hstab hvals hvalne]
    calc List.foldl expandStep (scanTab done s) ((k, v) :: todo2)
        = List.foldl expandStep (expandStep (scanTab done s) (k, v)) todo2 :=
          rfl
      _ = List.foldl expandStep (scanTab (done ++ [(k, v)]) s) todo2 := by
          rw [hstep]
      _ = scanTab ((done ++ [(k, v)]) ++ todo2) s :=
          ih (done ++ [(k, v)]) (by rw [List.append_assoc]; exact hsplit) s
      _ = scanTab (done ++ (k, v) :: todo2) s := by
          rw [List.append_assoc]
          rfl

theorem tableCond_fractions : tableCond UNICODE_FRACTIONS := by
  unfold tableCond
  decide

/-! ### The formula parser (`parse_formula`) and complex-entry parser
(`_parse_complex`) of `quirk_gate_reg_utils.py`.

The sympy expression evaluator is external; it is modelled as a function
producing, on success, the data the source inspects on the parsed
expression: its set of free symbols and, when the expression is constant,
its value as a real number when it has one (Python `float(result)` raises
on a non-real constant such as `2*I`). -/

/-- The outcome data of the external sympy parse that the source code
inspects: the free symbols of the parsed expression, and (for the constant
case) the real value that `float(...)` would produce, or `none` when the
conversion raises (a non-real constant). -/
structure SymExpr where
  freeSymbols : List String
  constReal : Option ℝ

/-- The result of `parse_formula`: either a plain float or the symbolic
expression itself. -/
inductive FormulaResult where
  | num (r : ℝ)
  | sym (e : SymExpr)

/-- The distinct failure modes of `parse_formula`, mirroring the Python
exception classes, each carrying its message. -/
inductive FormulaError where
  | typeErr (msg : String)
  | syntaxErr (msg : String)
  | floatErr (msg : String)
deriving DecidableEq

/-- The message of a `FormulaError`. -/
def FormulaError.message : FormulaError → String
  | .typeErr m => m
  | .syntaxErr m => m
  | .floatErr m => m

/-- The message of the free-variable check in `parse_formula`. -/
def varsErrMsg (formula : String) : String :=
  "Formula has variables besides time \x22t\x22: " ++ formula

/-- `parse_formula` of `quirk_gate_reg_utils.py`, with the external sympy
parse abstracted as `parseExpr` (returning `none` when sympy raises a
`SyntaxError`).  Mirrors the source: substitute the default, reject a
missing string, expand unicode fractions, parse, reject free symbols other
than `t`, and collapse a constant expression to a float. -/
def parse_formula (parseExpr : String → Option SymExpr)
    (formula default_formula : Option String) :
    Except FormulaError FormulaResult :=
  match (match formula with | none => default_formula | some f => some f) with
  | none => .error (.typeErr "Formula must be a string: None")
  | some f0 =>
    let f := expand_unicode_fractions f0
    match parseExpr f with
    | none => .error (.syntaxErr ("Failed to parse the gate formula " ++ f))
    | some result =>
      if result.freeSymbols ⊆ ["t"] then
        if result.freeSymbols.isEmpty then
          match result.constReal with
          | some r => .ok (.num r)
          | none => .error (.floatErr "TypeError: Cannot convert expression to float")
        else .ok (.sym result)
      else .error (.syntaxErr (varsErrMsg f))

/-- The trailing-lone-`i` rewrite performed by `_parse_complex`: a text
ending in `i` of length greater than one, not ending in `+i` or `-i`, has
its final `i` replaced by `*i`. -/
def rewriteTrailingI (text : String) : String :=
  if ['i'].isSuffixOf text.data ∧ text.data.length > 1 ∧
      ¬ ['+', 'i'].isSuffixOf text.data ∧ ¬ ['-', 'i'].isSuffixOf text.data then
    ⟨text.data.dropLast ++ ['*', 'i']⟩
  else text

/-- `_parse_complex` of `quirk_gate_reg_utils.py`, with the external
evaluation (sympy parse, substitution of `i`, coercion to `complex`)
abstracted as `evalC`, returning `none` when any of those steps raises.
Any failure is reported as an error naming the text variable, which the
source rebinds to the rewritten text before the evaluation. -/
def _parse_complex (evalC : String → Option ℂ) (text : String) :
    Except String ℂ :=
  let text2 := rewriteTrailingI text
  match evalC text2 with
  | some z => .ok z
  | none => .error ("Failed to parse complex from \x27" ++ text2 ++ "\x27")

/-! ### The column compiler, cell registry, URL decoder and arithmetic
cells.  The implementing modules (`url_to_circuit.py`, `cells/*.py`) are
not part of the provided sources - only their tests and the registration
list are - so these are modelled from the specification. -/

/-- A column slot token, restricted to the vocabulary the modelled claims
exercise: blank `1`, positive control `•`, negative control `◦`, the `X`
gate, and `Swap`. -/
inductive QToken where
  | blank
  | posctrl
  | negctrl
  | x
  | swap
deriving DecidableEq

/-- An emitted operation: an `X` gate or a swap, each with its list of
(positive) control wires. -/
inductive QOp where
  | x (controls : List ℕ) (target : ℕ)
  | swap (controls : List ℕ) (a b : ℕ)
deriving DecidableEq

/-- Wire positions (from index `i` upward) at which a column holds the
given token. -/
def tokenWiresFrom (t : QToken) : ℕ → List QToken → List ℕ
  | _, [] => []
  | i, c :: rest =>
    if c = t then i :: tokenWiresFrom t (i + 1) rest
    else tokenWiresFrom t (i + 1) rest

/-- Wire positions at which a column holds the given token. -/
def tokenWires (col : List QToken) (t : QToken) : List ℕ :=
  tokenWiresFrom t 0 col

/-- Pair a list of positions left-to-right: first with second, third with
fourth, and so on. -/
def pairUp : List ℕ → List (ℕ × ℕ)
  | a :: b :: rest => (a, b) :: pairUp rest
  | _ => []

/-- Modelled from the spec: the column compiler of `url_to_circuit.py`
(not under the provided sources).  Controls are collected first (a negative
control contributes bracketing bit-flips on its own wire); the swap token
must occur an even number of times and is paired left-to-right, each pair
yielding one swap operation controlled by the column's controls; remaining
gate cells emit their operation controlled by the column's controls; the
bracketing flips are repeated after the controlled region. -/
def compileColumn (col : List QToken) : Except String (List QOp) :=
  let poss := tokenWires col .posctrl
  let negs := tokenWires col .negctrl
  let controls := poss ++ negs
  let swaps := tokenWires col .swap
  if swaps.length % 2 = 1 then
    .error "Wrong number of swap gates in a column: an even number is required."
  else
    let flips := negs.map (fun w => QOp.x [] w)
    let swapOps := (pairUp swaps).map (fun p => QOp.swap controls p.1 p.2)
    let cellOps := (tokenWires col .x).map (fun w => QOp.x controls w)
    .ok (flips ++ swapOps ++ cellOps ++ flips)

/-- Whether an operation is a swap operation. -/
def isSwapOp : QOp → Bool
  | .swap _ _ _ => true
  | _ => false

/-- A registry entry: identifier, footprint in wire-rows, and a builder
that either produces operations or fails. -/
structure CellMaker where
  identifier : String
  footprint : ℕ
  builder : Except String (List QOp)

/-- The failure message of the explicitly-unsupported cells. -/
def unphysicalMsg : String :=
  "Unphysical operation: not supported on a physical quantum computer."

/-- Modelled from the spec: the relevant slice of the cell registry built
by `cells/all_cells.py` (whose cell modules are not under the provided
sources).  Lookup by exact identifier; the placeholders tagged unsupported
resolve to a maker whose builder always fails with the unphysical-operation
message; unknown identifiers do not resolve at all. -/
def cell_registry (tok : String) : Option CellMaker :=
  if tok = "X" then some ⟨"X", 1, .ok [QOp.x [] 0]⟩
  else if tok = "•" then some ⟨"•", 1, .ok []⟩
  else if tok = "◦" then some ⟨"◦", 1, .ok []⟩
  else if tok = "Swap" then some ⟨"Swap", 1, .ok []⟩
  else if tok = "__error__" then some ⟨"__error__", 1, .error unphysicalMsg⟩
  else if tok = "__unstable__UniversalNot" then
    some ⟨"__unstable__UniversalNot", 1, .error unphysicalMsg⟩
  else none

/-- Modelled from the spec: processing one token is lookup followed by
invoking the builder - two distinct stages, so a lookup failure
(unrecognized token) is reported before any build-time failure. -/
def processToken (tok : String) : Except String (List QOp) :=
  match cell_registry tok with
  | none => .error ("Unrecognized column entry: " ++ tok)
  | some m => m.builder

/-- The accepted URL scheme+host+path forms of the quirk URL decoder. -/
def quirkUrlBases : List String :=
  ["http://algassert.com/quirk", "https://algassert.com/quirk"]

/-- Strips a recognized base from the URL, returning the remainder, or
`none` when the URL starts with no recognized base. -/
def stripQuirkBase (url : String) : Option String :=
  quirkUrlBases.findSome? fun q =>
    if q.data.isPrefixOf url.data then some ⟨url.data.drop q.data.length⟩
    else none

/-- Modelled from the spec: `quirk_url_to_circuit` of `url_to_circuit.py`
(not under the provided sources).  The URL must start with a recognized
base ("must start with ..." otherwise); no fragment or an empty fragment
yields the empty circuit; a fragment starting with `circuit=` has its
payload JSON-decoded (the decoder and the downstream column loop are the
abstract parameters `jsonDecode` and `compileJson`; an empty payload is not
valid JSON, so `jsonDecode` fails on it and the failure surfaces as a
JSON-decode error). -/
def quirk_url_to_circuit {J : Type} (jsonDecode : String → Option J)
    (compileJson : J → Except String (List QOp)) (url : String) :
    Except String (List QOp) :=
  match stripQuirkBase url with
  | none => .error "Invalid URL. It must start with a recognized quirk base."
  | some rest =>
    if rest = "" then .ok []
    else if rest = "#" then .ok []
    else if "#circuit=".data.isPrefixOf rest.data then
      match jsonDecode ⟨rest.data.drop 9⟩ with
      | none => .error "JSONDecodeError: Expecting value: line 1 column 1 (char 0)"
      | some j => compileJson j
    else .error "Invalid URL. It must start with a recognized quirk base."

/-- The six comparison cells. -/
inductive CmpOp where
  | lt
  | gt
  | ge
  | le
  | eq
  | ne
deriving DecidableEq

/-- The integer relation stated by a comparison cell. -/
def relHolds : CmpOp → ℕ → ℕ → Bool
  | .lt, a, b => decide (a < b)
  | .gt, a, b => decide (b < a)
  | .ge, a, b => decide (b ≤ a)
  | .le, a, b => decide (a ≤ b)
  | .eq, a, b => decide (a = b)
  | .ne, a, b => decide (a ≠ b)

/-- Modelled from the spec: the compiled operation of a column holding one
comparison cell with a single-bit target together with 2-bit input
registers A and B, as a map on packed basis states.  The state is packed as
`t*16 + a*4 + b` (target wire first, then A's wires, then B's wires, the
earlier wire being the more significant bit of the state index), matching
the basis-state literals of the repository's tests.  The target bit is
XORed with 1 exactly when the cell's relation holds between the register
values. -/
def comparisonColumnApply (op : CmpOp) (s : ℕ) : ℕ :=
  (if relHolds op (s / 4 % 4) (s % 4) then (s / 16 % 2) ^^^ 1
   else s / 16 % 2) * 16 + (s / 4 % 4) * 4 + s % 4

/-- Modelled from the spec: the `+=A` cell on an `n`-wire register with
bound input value `a`. -/
def addA (n a x : ℕ) : ℕ :=
  (x + a) % 2 ^ n

/-- Modelled from the spec: the `-=A` cell on an `n`-wire register with
bound input value `a` (subtraction modulo `2^n`, expressed with the modular
complement to stay in the naturals). -/
def subA (n a x : ℕ) : ℕ :=
  (x + (2 ^ n - a % 2 ^ n)) % 2 ^ n

/-- Modelled from the spec: the `inc` cell on an `n`-wire register. -/
def incCell (n x : ℕ) : ℕ :=
  (x + 1) % 2 ^ n

/-- Modelled from the spec: the `dec` cell on an `n`-wire register. -/
def decCell (n x : ℕ) : ℕ :=
  subA n 1 x

/-! ### Claim theorems -/

/-- C1: for a column binding 2-bit input registers A and B and containing
one comparison cell with a single-bit target register, the compiled
operation XORs the target bit with 1 on exactly those computational basis
states where the stated integer relation between the values of A and B
holds, and leaves the target bit (and both registers) unchanged on every
other basis state - for all six relations, all 16 combinations of 2-bit A
and 2-bit B, and both target values. -/
theorem claim_C1_comparison_cells (op : CmpOp) (a b t : ℕ)
    (ha : a < 4) (hb : b < 4) (ht : t < 2) :
    comparisonColumnApply op (t * 16 + a * 4 + b) =
      (if relHolds op a b then t ^^^ 1 else t) * 16 + a * 4 + b := by
  have h1 : (t * 16 + a * 4 + b) % 4 = b := by omega
  have h2 : (t * 16 + a * 4 + b) / 4 % 4 = a := by omega
  have h3 : (t * 16 + a * 4 + b) / 16 % 2 = t := by omega
  simp only [comparisonColumnApply, h1, h2, h3]

/-- Witness for C1, at the data of the repository's own test: with A=0,
B=2, the `^A<B` cell toggles the target (state 0b00010 maps to 0b10010)
while the `^A>B` cell leaves it unchanged. -/
theorem claim_C1_comparison_cells_witness :
    comparisonColumnApply CmpOp.lt 2 = 18 ∧
    comparisonColumnApply CmpOp.gt 2 = 2 := by
  have h1 := claim_C1_comparison_cells CmpOp.lt 0 2 0
    (by decide) (by decide) (by decide)
  have h2 := claim_C1_comparison_cells CmpOp.gt 0 2 0
    (by decide) (by decide) (by decide)
  have e : (0 * 16 + 0 * 4 + 2 : ℕ) = 2 := by norm_num
  rw [e] at h1 h2
  exact ⟨h1.trans (by decide), h2.trans (by decide)⟩

theorem subA_int (n a x : ℕ) :
    (subA n a x : ℤ) = ((x : ℤ) - a) % (2 ^ n : ℤ) := by
  have hpos : 0 < 2 ^ n := pow_pos (by norm_num) n
  have hle : a % 2 ^ n ≤ 2 ^ n := le_of_lt (Nat.mod_lt _ hpos)
  unfold subA
  push_cast [hle]
  have hdm : (2 ^ n : ℤ) * ((a : ℤ) / 2 ^ n) + (a : ℤ) % 2 ^ n = (a : ℤ) :=
    Int.ediv_add_emod _ _
  have hrw : (x : ℤ) + ((2 ^ n : ℤ) - (a : ℤ) % 2 ^ n) =
      ((x : ℤ) - a) + 2 ^ n * (1 + (a : ℤ) / 2 ^ n) := by
    linear_combination -hdm
  rw [hrw, Int.add_mul_emod_self_left]

theorem subA_addA (n a x : ℕ) (hx : x < 2 ^ n) :
    subA n a (addA n a x) = x := by
  have h1 : (subA n a (addA n a x) : ℤ) =
      ((addA n a x : ℤ) - a) % (2 ^ n : ℤ) := subA_int n a (addA n a x)
  have h2 : (addA n a x : ℤ) = ((x : ℤ) + a) % (2 ^ n : ℤ) := by
    unfold addA; push_cast; ring_nf
  rw [h2] at h1
  have h3 : (((x : ℤ) + a) % 2 ^ n - a) % 2 ^ n =
      ((x : ℤ) + a - a) % 2 ^ n := by
    conv_lhs => rw [Int.sub_emod]
    conv_rhs => rw [Int.sub_emod]
    rw [Int.emod_emod_of_dvd _ dvd_rfl]
  have h4 : ((x : ℤ) + a - a) % (2 ^ n : ℤ) = (x : ℤ) % 2 ^ n := by ring_nf
  have h5 : (x : ℤ) % (2 ^ n : ℤ) = (x : ℤ) :=
    Int.emod_eq_of_lt (by positivity) (by exact_mod_cast hx)
  have : (subA n a (addA n a x) : ℤ) = (x : ℤ) := by rw [h1, h3, h4, h5]
  exact_mod_cast this

/-- C2: for every register width `n`, bound input value `a` and basis state
`x < 2^n`, the `+=A` cell maps `x` to `(x+a) mod 2^n`, the `-=A` cell to
`(x-a) mod 2^n` (stated over the integers), and `inc`/`dec` add and
subtract 1 modulo `2^n`; hence `+=A` followed by `-=A`, and `inc` followed
by `dec`, return every basis state to itself. -/
theorem claim_C2_arithmetic_inverse (n a x : ℕ) (hx : x < 2 ^ n) :
    addA n a x = (x + a) % 2 ^ n ∧
    (subA n a x : ℤ) = ((x : ℤ) - a) % (2 ^ n : ℤ) ∧
    incCell n x = (x + 1) % 2 ^ n ∧
    (decCell n x : ℤ) = ((x : ℤ) - 1) % (2 ^ n : ℤ) ∧
    subA n a (addA n a x) = x ∧
    decCell n (incCell n x) = x := by
  refine ⟨rfl, subA_int n a x, rfl, ?_, subA_addA n a x hx, ?_⟩
  · have h := subA_int n 1 x
    simpa using h
  · exact subA_addA n 1 x hx

/-- Witness for C2 at width 3 with `a = 5` and `x = 6`, matching the
wraparound behaviour of the repository's `inc3`/`dec3` tests. -/
theorem claim_C2_arithmetic_inverse_witness :
    addA 3 5 6 = 3 ∧ subA 3 5 (addA 3 5 6) = 6 ∧
    decCell 3 (incCell 3 6) = 6 := by
  have h := claim_C2_arithmetic_inverse 3 5 6 (by decide)
  exact ⟨h.1.trans (by decide), h.2.2.2.2.1, h.2.2.2.2.2⟩

theorem pairUp_length : ∀ l : List ℕ, (pairUp l).length = l.length / 2
  | [] => rfl
  | [_] => by simp [pairUp]
  | a :: b :: rest => by
    have ih := pairUp_length rest
    simp only [pairUp, List.length_cons, ih]
    omega

theorem pairUp_getElem? : ∀ (l : List ℕ) (i : ℕ),
    (pairUp l)[i]? = (l[2 * i]?).bind fun a => (l[2 * i + 1]?).map (Prod.mk a)
  | [], i => by simp [pairUp]
  | [a], i => by
    cases i with
    | zero => simp [pairUp]
    | succ j =>
      have e1 : 2 * (j + 1) = 2 * j + 1 + 1 := by ring
      simp only [pairUp, e1, List.getElem?_cons_succ, List.getElem?_nil]
      simp
  | a :: b :: rest, 0 => by simp [pairUp]
  | a :: b :: rest, (i + 1) => by
    have ih := pairUp_getElem? rest i
    have e1 : 2 * (i + 1) = 2 * i + 1 + 1 := by ring
    have e2 : 2 * (i + 1) + 1 = 2 * i + 1 + 1 + 1 := by ring
    simp only [pairUp, e1, e2, List.getElem?_cons_succ]
    exact ih

theorem filter_isSwapOp_x (ctrl : List ℕ) (l : List ℕ) :
    (l.map fun w => QOp.x ctrl w).filter isSwapOp = [] := by
  induction l with
  | nil => rfl
  | cons w t ih => simp [isSwapOp, ih]

theorem filter_isSwapOp_swap (ctrl : List ℕ) (l : List (ℕ × ℕ)) :
    (l.map fun p => QOp.swap ctrl p.1 p.2).filter isSwapOp =
      l.map fun p => QOp.swap ctrl p.1 p.2 := by
  induction l with
  | nil => rfl
  | cons p t ih => simpa [isSwapOp] using ih

/-- C3: a column whose Swap-token count is odd (in particular a lone Swap)
fails with an arity error whose message contains "number of swap gates";
a column whose Swap-token count is `2*k` with `k ≥ 1` compiles, yielding
exactly `k` swap operations that pair the Swap positions left-to-right
(first with second, third with fourth, and so on). -/
theorem claim_C3_swap_pairing (col : List QToken) :
    ((tokenWires col .swap).length % 2 = 1 ∨
        (tokenWires col .swap).length = 1 →
      ∃ msg, compileColumn col = .error msg ∧
        containsSubstr msg "number of swap gates" = true) ∧
    (∀ k, (tokenWires col .swap).length = 2 * k → 1 ≤ k →
      ∃ ops, compileColumn col = .ok ops ∧
        (ops.filter isSwapOp).length = k ∧
        (∀ i a b, (tokenWires col .swap)[2 * i]? = some a →
          (tokenWires col .swap)[2 * i + 1]? = some b →
          (ops.filter isSwapOp)[i]? = some (QOp.swap
            (tokenWires col .posctrl ++ tokenWires col .negctrl) a b))) := by
  constructor
  · intro hodd
    have h1 : (tokenWires col .swap).length % 2 = 1 := by
      rcases hodd with h | h
      · exact h
      · rw [h]
    have herr : compileColumn col = .error
        "Wrong number of swap gates in a column: an even number is required." := by
      simp only [compileColumn]
      rw [if_pos h1]
    exact ⟨_, herr, by decide⟩
  · intro k hk hk1
    have heven : ¬ (tokenWires col .swap).length % 2 = 1 := by omega
    have hfil : (((tokenWires col .negctrl).map (fun w => QOp.x [] w) ++
        (pairUp (tokenWires col .swap)).map (fun p => QOp.swap
          (tokenWires col .posctrl ++ tokenWires col .negctrl) p.1 p.2) ++
        (tokenWires col QToken.x).map (fun w => QOp.x
          (tokenWires col .posctrl ++ tokenWires col .negctrl) w) ++
        (tokenWires col .negctrl).map (fun w => QOp.x [] w)).filter
          isSwapOp) =
        (pairUp (tokenWires col .swap)).map (fun p => QOp.swap
          (tokenWires col .posctrl ++ tokenWires col .negctrl) p.1 p.2) := by
      simp only [List.filter_append, filter_isSwapOp_x, filter_isSwapOp_swap,
        List.append_nil, List.nil_append]
    refine ⟨(tokenWires col .negctrl).map (fun w => QOp.x [] w) ++
      (pairUp (tokenWires col .swap)).map (fun p => QOp.swap
        (tokenWires col .posctrl ++ tokenWires col .negctrl) p.1 p.2) ++
      (tokenWires col QToken.x).map (fun w => QOp.x
        (tokenWires col .posctrl ++ tokenWires col .negctrl) w) ++
      (tokenWires col .negctrl).map (fun w => QOp.x [] w), ?_, ?_, ?_⟩
    · simp only [compileColumn]
      rw [if_neg heven]
    · rw [hfil, List.length_map, pairUp_length, hk]
      omega
    · intro i a b hga hgb
      rw [hfil, List.getElem?_map, pairUp_getElem?, hga, hgb]
      simp

/-- Witness for C3: a lone Swap fails with the arity message, and the
column Swap,X,Swap compiles to one swap pairing wires 0 and 2, as in the
repository's swap test. -/
theorem claim_C3_swap_pairing_witness :
    (∃ msg, compileColumn [QToken.swap] = .error msg ∧
      containsSubstr msg "number of swap gates" = true) ∧
    (∃ ops,
      compileColumn [QToken.swap, QToken.x, QToken.swap] = .ok ops ∧
      (ops.filter isSwapOp).length = 1 ∧
      (ops.filter isSwapOp)[0]? = some (QOp.swap [] 0 2)) := by
  constructor
  · exact (claim_C3_swap_pairing [QToken.swap]).1 (Or.inr (by decide))
  · obtain ⟨ops, h1, h2, h3⟩ :=
      (claim_C3_swap_pairing [QToken.swap, QToken.x, QToken.swap]).2 1
        (by decide) (by decide)
    refine ⟨ops, h1, h2, ?_⟩
    have h4 := h3 0 0 2 (by decide) (by decide)
    exact h4.trans (by decide)

theorem tokenWiresFrom_replicate (t : QToken) (ht : ¬ QToken.blank = t) :
    ∀ (w i : ℕ) (rest : List QToken),
      tokenWiresFrom t i (List.replicate w QToken.blank ++ rest) =
        tokenWiresFrom t (i + w) rest := by
  intro w
  induction w with
  | zero =>
    intro i rest
    simp
  | succ m ih =>
    intro i rest
    simp only [List.replicate_succ, List.cons_append, tokenWiresFrom,
      if_neg ht, List.append_eq]
    rw [ih (i + 1) rest]
    congr 1
    omega

/-- C4: compiling a single column with the negative control `◦` on wire `w`
and the target `X` on wire `w+1` produces exactly the sequence
[X on wire w, X on wire w+1 controlled by wire w, X on wire w]: the
negative control is realized by bracketing bit-flips on the control wire
around the positively-controlled operation. -/
theorem claim_C4_negative_control (w : ℕ) :
    compileColumn (List.replicate w QToken.blank ++
        [QToken.negctrl, QToken.x]) =
      .ok [QOp.x [] w, QOp.x [w] (w + 1), QOp.x [] w] := by
  have hpos : tokenWires (List.replicate w QToken.blank ++
      [QToken.negctrl, QToken.x]) QToken.posctrl = [] := by
    unfold tokenWires
    rw [tokenWiresFrom_replicate _ (by decide)]
    simp [tokenWiresFrom]
  have hneg : tokenWires (List.replicate w QToken.blank ++
      [QToken.negctrl, QToken.x]) QToken.negctrl = [w] := by
    unfold tokenWires
    rw [tokenWiresFrom_replicate _ (by decide)]
    simp [tokenWiresFrom]
  have hx : tokenWires (List.replicate w QToken.blank ++
      [QToken.negctrl, QToken.x]) QToken.x = [w + 1] := by
    unfold tokenWires
    rw [tokenWiresFrom_replicate _ (by decide)]
    simp [tokenWiresFrom]
  have hswap : tokenWires (List.replicate w QToken.blank ++
      [QToken.negctrl, QToken.x]) QToken.swap = [] := by
    unfold tokenWires
    rw [tokenWiresFrom_replicate _ (by decide)]
    simp [tokenWiresFrom]
  simp [compileColumn, hpos, hneg, hx, hswap, pairUp]

/-- C5: the tokens `__error__` and `__unstable__UniversalNot` resolve in
the registry (no unrecognized-token failure), and invoking the resolved
cell's builder always fails with a message containing "Unphysical
operation"; lookup success and build-time failure are distinct stages, an
unknown token instead failing at lookup with an "Unrecognized" message. -/
theorem claim_C5_unphysical_cells :
    (∃ m, cell_registry "__error__" = some m ∧
      ∃ msg, m.builder = .error msg ∧
        containsSubstr msg "Unphysical operation" = true) ∧
    (∃ m, cell_registry "__unstable__UniversalNot" = some m ∧
      ∃ msg, m.builder = .error msg ∧
        containsSubstr msg "Unphysical operation" = true) ∧
    (∃ msg, processToken "__error__" = .error msg ∧
      containsSubstr msg "Unphysical operation" = true ∧
      containsSubstr msg "Unrecognized" = false) ∧
    (∃ msg, processToken "not a real" = .error msg ∧
      containsSubstr msg "Unrecognized" = true ∧
      containsSubstr msg "Unphysical operation" = false) := by
  have h1 : cell_registry "__error__" =
      some ⟨"__error__", 1, .error unphysicalMsg⟩ := by
    simp [cell_registry]
  have h2 : cell_registry "__unstable__UniversalNot" =
      some ⟨"__unstable__UniversalNot", 1, .error unphysicalMsg⟩ := by
    simp [cell_registry]
  have h3 : processToken "__error__" = .error unphysicalMsg := by
    simp [processToken, h1]
  have h4 : processToken "not a real" =
      .error ("Unrecognized column entry: " ++ "not a real") := by
    simp [processToken, cell_registry]
  exact ⟨⟨_, h1, unphysicalMsg, rfl, by decide⟩,
    ⟨_, h2, unphysicalMsg, rfl, by decide⟩,
    ⟨_, h3, by decide, by decide⟩,
    ⟨_, h4, by decide, by decide⟩⟩

/-- C6: for every accepted URL base, a URL with no fragment or an empty
fragment compiles to the empty circuit without error, whereas a fragment
that is exactly `circuit=` with an empty payload fails with a JSON-decode
error (the empty string is not valid JSON), instead of returning an empty
circuit. -/
theorem claim_C6_url_fragments {J : Type} (jsonDecode : String → Option J)
    (compileJson : J → Except String (List QOp)) (p : String)
    (hp : p ∈ quirkUrlBases) (hjson : jsonDecode "" = none) :
    quirk_url_to_circuit jsonDecode compileJson p = .ok [] ∧
    quirk_url_to_circuit jsonDecode compileJson (p ++ "#") = .ok [] ∧
    quirk_url_to_circuit jsonDecode compileJson (p ++ "#circuit=") =
      .error "JSONDecodeError: Expecting value: line 1 column 1 (char 0)" := by
  have key : ∀ q : String, stripQuirkBase q = some "" →
      stripQuirkBase (q ++ "#") = some "#" →
      stripQuirkBase (q ++ "#circuit=") = some "#circuit=" →
      quirk_url_to_circuit jsonDecode compileJson q = .ok [] ∧
      quirk_url_to_circuit jsonDecode compileJson (q ++ "#") = .ok [] ∧
      quirk_url_to_circuit jsonDecode compileJson (q ++ "#circuit=") =
        .error "JSONDecodeError: Expecting value: line 1 column 1 (char 0)" := by
    intro q h0 h1 h2
    refine ⟨?_, ?_, ?_⟩
    · simp [quirk_url_to_circuit, h0]
    · simp [quirk_url_to_circuit, h1]
    · simp only [quirk_url_to_circuit, h2]
      rw [if_neg (by decide), if_neg (by decide), if_pos (by decide),
        show (⟨"#circuit=".data.drop 9⟩ : String) = "" from by decide, hjson]
  have hcases : p = "http://algassert.com/quirk" ∨
      p = "https://algassert.com/quirk" := by
    simpa [quirkUrlBases] using hp
  rcases hcases with h | h <;> subst h
  · exact key _ (by decide) (by decide) (by decide)
  · exact key _ (by decide) (by decide) (by decide)

/-- Witness for C6 at the http base with an always-failing decoder model
(the empty string is not valid JSON). -/
theorem claim_C6_url_fragments_witness :
    quirk_url_to_circuit (fun _ : String => (none : Option Unit))
      (fun _ => Except.ok []) "http://algassert.com/quirk" = .ok [] ∧
    quirk_url_to_circuit (fun _ : String => (none : Option Unit))
      (fun _ => Except.ok []) ("http://algassert.com/quirk" ++ "#") =
      .ok [] ∧
    quirk_url_to_circuit (fun _ : String => (none : Option Unit))
      (fun _ => Except.ok []) ("http://algassert.com/quirk" ++ "#circuit=") =
      .error "JSONDecodeError: Expecting value: line 1 column 1 (char 0)" :=
  claim_C6_url_fragments _ _ _ (by simp [quirkUrlBases]) rfl

theorem isPrefixOf_append_of_isPrefixOf {pat a : List Char} (b : List Char)
    (h : pat.isPrefixOf a = true) : pat.isPrefixOf (a ++ b) = true := by
  induction pat generalizing a with
  | nil => simp [List.isPrefixOf]
  | cons p pt ih =>
    cases a with
    | nil => simp [List.isPrefixOf] at h
    | cons a0 a2 =>
      simp only [List.isPrefixOf, List.cons_append, Bool.and_eq_true] at h ⊢
      exact ⟨h.1, ih h.2⟩

theorem containsSub_of_prefix {pat s : List Char}
    (h : pat.isPrefixOf s = true) : containsSub pat s = true := by
  cases s with
  | nil =>
    cases pat with
    | nil => rfl
    | cons p pt => simp [List.isPrefixOf] at h
  | cons c rest => simp [containsSub, h]

theorem isPrefixOf_self (l : List Char) : l.isPrefixOf l = true := by
  induction l with
  | nil => rfl
  | cons c t ih => simp [List.isPrefixOf, ih]

theorem containsSub_middle (a pat b : List Char) :
    containsSub pat (a ++ pat ++ b) = true := by
  induction a with
  | nil =>
    simp only [List.nil_append]
    exact containsSub_of_prefix
      (isPrefixOf_append_of_isPrefixOf b (isPrefixOf_self pat))
  | cons c a2 ih =>
    simp only [List.cons_append, containsSub, Bool.or_eq_true]
    exact Or.inr ih

theorem containsSubstr_append_of_prefix {pat lit : String} (suf : String)
    (h : pat.data.isPrefixOf lit.data = true) :
    containsSubstr (lit ++ suf) pat = true := by
  unfold containsSubstr
  rw [String.data_append]
  exact containsSub_of_prefix (isPrefixOf_append_of_isPrefixOf _ h)

/-- C7: for every formula string that the expression evaluator parses
successfully, `parse_formula` fails with an error whose message contains
"Formula has variables besides time" precisely when the parsed expression
has a free variable other than the time symbol `t`; when the free
variables are a subset of the singleton `t` and include `t`, the symbolic
expression is returned without error. -/
theorem claim_C7_formula_variables (parseExpr : String → Option SymExpr)
    (s : String) (e : SymExpr)
    (hp : parseExpr (expand_unicode_fractions s) = some e) :
    ((∃ err, parse_formula parseExpr (some s) none = .error err ∧
        containsSubstr err.message "Formula has variables besides time" =
          true) ↔
      ∃ v ∈ e.freeSymbols, v ≠ "t") ∧
    (e.freeSymbols ⊆ ["t"] → "t" ∈ e.freeSymbols →
      parse_formula parseExpr (some s) none = .ok (.sym e)) := by
  have hred : parse_formula parseExpr (some s) none =
      (if e.freeSymbols ⊆ ["t"] then
        if e.freeSymbols.isEmpty then
          match e.constReal with
          | some r => .ok (.num r)
          | none => .error (.floatErr
              "TypeError: Cannot convert expression to float")
        else .ok (.sym e)
      else .error (.syntaxErr
        (varsErrMsg (expand_unicode_fractions s)))) := by
    simp only [parse_formula, hp]
  by_cases hsub : e.freeSymbols ⊆ ["t"]
  · have hnov : ¬ ∃ v ∈ e.freeSymbols, v ≠ "t" := by
      rintro ⟨v, hv, hne⟩
      have hvt := hsub hv
      simp at hvt
      exact hne hvt
    refine ⟨⟨?_, fun h => absurd h hnov⟩, ?_⟩
    · rintro ⟨err, herr, hcontains⟩
      exfalso
      rw [hred, if_pos hsub] at herr
      by_cases hemp : e.freeSymbols.isEmpty
      · rw [if_pos hemp] at herr
        cases hcr : e.constReal with
        | some r =>
          rw [hcr] at herr
          exact absurd herr (by simp)
        | none =>
          rw [hcr] at herr
          have heq : FormulaError.floatErr
              "TypeError: Cannot convert expression to float" = err := by
            injection herr
          rw [← heq] at hcontains
          simp only [FormulaError.message] at hcontains
          exact absurd hcontains (by decide)
      · rw [if_neg hemp] at herr
        exact absurd herr (by simp)
    · intro h1 h2
      have hne : ¬ e.freeSymbols.isEmpty := by
        cases hfs : e.freeSymbols with
        | nil => rw [hfs] at h2; simp at h2
        | cons v t => simp [hfs]
      rw [hred, if_pos hsub, if_neg hne]
  · refine ⟨⟨fun _ => ?_, fun _ => ?_⟩, fun h1 _ => absurd h1 hsub⟩
    · rw [List.subset_def] at hsub
      push_neg at hsub
      obtain ⟨v, hv, hvn⟩ := hsub
      exact ⟨v, hv, by simpa using hvn⟩
    · refine ⟨.syntaxErr (varsErrMsg (expand_unicode_fractions s)), ?_, ?_⟩
      · rw [hred, if_neg hsub]
      · simp only [FormulaError.message, varsErrMsg]
        exact containsSubstr_append_of_prefix _ (by decide)

/-- Witness for C7: with an evaluator model returning an expression whose
only free symbol is `t`, `parse_formula` returns the symbolic expression
without error. -/
theorem claim_C7_formula_variables_witness :
    parse_formula (fun _ => some ⟨["t"], none⟩) (some "t") none =
      .ok (.sym ⟨["t"], none⟩) :=
  (claim_C7_formula_variables (fun _ => some ⟨["t"], none⟩) "t"
    ⟨["t"], none⟩ rfl).2 (by decide) (by decide)

/-- C9 counterexample: the entry "(i" triggers the trailing-lone-i rewrite
to "(*i"; when the evaluation of "(*i" fails (it is a syntax error for the
expression evaluator), the raised message names the rewritten text "(*i",
and the original entry text "(i" does not occur anywhere in the message -
refuting the claim that the failure message names the offending entry
text. -/
theorem claim_C9_counterexample :
    _parse_complex (fun _ => none) "(i" =
      .error ("Failed to parse complex from \x27" ++
        rewriteTrailingI "(i" ++ "\x27") ∧
    rewriteTrailingI "(i" = "(*i" ∧
    containsSubstr ("Failed to parse complex from \x27" ++
      rewriteTrailingI "(i" ++ "\x27") "(i" = false :=
  ⟨rfl, by decide, by decide⟩

/-- C9 amended: the trailing-lone-i rewrite behaves as claimed (a text
ending in `i`, of length greater than one, not ending in `+i` or `-i`, has
its final `i` replaced by `*i` before evaluation; the standalone units
`i`, `+i`, `-i` are handed over unchanged), and every entry whose
evaluation fails raises a hard error whose message names the offending
text as handed to the evaluator, i.e. the entry text after the rewrite -
which differs from the original entry exactly when the rewrite applied. -/
theorem claim_C9_trailing_i_amended (evalC : String → Option ℂ)
    (text : String) :
    ((['i'].isSuffixOf text.data ∧ text.data.length > 1 ∧
        ¬ ['+', 'i'].isSuffixOf text.data ∧
        ¬ ['-', 'i'].isSuffixOf text.data) →
      rewriteTrailingI text = ⟨text.data.dropLast ++ ['*', 'i']⟩) ∧
    (¬ (['i'].isSuffixOf text.data ∧ text.data.length > 1 ∧
        ¬ ['+', 'i'].isSuffixOf text.data ∧
        ¬ ['-', 'i'].isSuffixOf text.data) →
      rewriteTrailingI text = text) ∧
    rewriteTrailingI "i" = "i" ∧
    rewriteTrailingI "+i" = "+i" ∧
    rewriteTrailingI "-i" = "-i" ∧
    (evalC (rewriteTrailingI text) = none →
      _parse_complex evalC text =
        .error ("Failed to parse complex from \x27" ++
          rewriteTrailingI text ++ "\x27") ∧
      containsSubstr ("Failed to parse complex from \x27" ++
        rewriteTrailingI text ++ "\x27") (rewriteTrailingI text) = true) := by
  refine ⟨?_, ?_, by decide, by decide, by decide, ?_⟩
  · intro h
    simp only [rewriteTrailingI, if_pos h]
  · intro h
    simp only [rewriteTrailingI, if_neg h]
  · intro hev
    constructor
    · simp only [_parse_complex, hev]
    · unfold containsSubstr
      rw [String.data_append, String.data_append]
      exact containsSub_middle _ _ _

/-- Witness for C9 (amended) at the entry "2+3i" under a failing
evaluator: the rewrite applies and the message names and contains the
rewritten text "2+3*i". -/
theorem claim_C9_trailing_i_amended_witness :
    _parse_complex (fun _ => none) "2+3i" =
      .error "Failed to parse complex from \x272+3*i\x27" ∧
    containsSubstr "Failed to parse complex from \x272+3*i\x27" "2+3*i" =
      true := by
  have h := (claim_C9_trailing_i_amended (fun _ => none) "2+3i").2.2.2.2.2 rfl
  have hrw : rewriteTrailingI "2+3i" = "2+3*i" := by decide
  have heq : ("Failed to parse complex from \x27" ++ "2+3*i" ++ "\x27") =
      "Failed to parse complex from \x272+3*i\x27" := by decide
  obtain ⟨h1, h2⟩ := h
  rw [hrw, heq] at h1 h2
  exact ⟨h1, h2⟩

/-- C10: for every formula whose parsed expression has no free symbols at
all, `parse_formula` returns a plain float (a real number), not a symbolic
expression; consequently, when such a constant expression is not a real
number (for example `2*I`), the conversion to float raises an error even
though the formula parsed successfully and has no variable besides `t`. -/
theorem claim_C10_constant_float (parseExpr : String → Option SymExpr)
    (s : String) (e : SymExpr)
    (hp : parseExpr (expand_unicode_fractions s) = some e)
    (hconst : e.freeSymbols = []) :
    (∀ r : ℝ, e.constReal = some r →
      parse_formula parseExpr (some s) none = .ok (.num r)) ∧
    (e.constReal = none →
      parse_formula parseExpr (some s) none =
        .error (.floatErr "TypeError: Cannot convert expression to float")) := by
  have hsub : e.freeSymbols ⊆ ["t"] := by
    rw [hconst]
    simp
  have hemp : e.freeSymbols.isEmpty := by
    rw [hconst]
    rfl
  have hred : parse_formula parseExpr (some s) none =
      (match e.constReal with
        | some r => .ok (.num r)
        | none => .error (.floatErr
            "TypeError: Cannot convert expression to float")) := by
    simp only [parse_formula, hp]
    rw [if_pos hsub, if_pos hemp]
  constructor
  · intro r hr
    rw [hred, hr]
  · intro hr
    rw [hred, hr]

/-- Witness for C10 with an evaluator model returning a symbol-free,
non-real constant for "2*I": the float conversion fails. -/
theorem claim_C10_constant_float_witness :
    parse_formula (fun _ => some ⟨[], none⟩) (some "2*I") none =
      .error (.floatErr "TypeError: Cannot convert expression to float") :=
  (claim_C10_constant_float (fun _ => some ⟨[], none⟩) "2*I" ⟨[], none⟩
    rfl rfl).2 rfl

/-- C8: for every input string, `expand_unicode_fractions` replaces every
occurrence of each recognized vulgar-fraction glyph by its parenthesized
fraction text and every compound occurrence of `√` immediately followed by
such a glyph by `(sqrt(<fraction>))`, with the compound form taking
precedence so the sqrt wrapping is preserved: the implementation's fold of
sequential replacements equals the one-pass specification scan. -/
theorem claim_C8_expand_unicode_fractions (s : String) :
    expand_unicode_fractions s = specVulgarExpansion s := by
  have h := foldl_expandStep_eq_scanTab tableCond_fractions
    UNICODE_FRACTIONS [] rfl s.data
  rw [scanTab_nil_table] at h
  show (⟨expandList s.data⟩ : String) = ⟨scanTab UNICODE_FRACTIONS s.data⟩
  have h2 : expandList s.data = scanTab UNICODE_FRACTIONS s.data := by
    unfold expandList
    exact h
  rw [h2]

end QuirkSpec
